import Mathlib

/-!
Verification of `src/engine/src/view/paper-ext/Paper.Selection.js`
(the `paper.Selection` class of the wick-editor engine).

Numbers are modelled as exact rationals (`ℚ`).  JavaScript division by
zero yields `NaN`/`Infinity`; rational division by zero yields `0`.
Every place where this matters is commented at the definition, and no
theorem below relies on the value of a division by zero being anything
specific except that the round-trip result differs from the requested
value — which holds in both semantics.

Rotation needs `cos`/`sin`, which do not exist computably on `ℚ`; the
definitions are therefore parameterised by a trigonometric oracle
`trig : ℚ → ℚ × ℚ` returning the (cosine, sine) pair of an angle.  All
theorems hold for an arbitrary oracle.
-/

namespace WickSelection

/-- A 2D point (`paper.Point`) with rational coordinates. -/
structure Pt where
  x : ℚ
  y : ℚ
deriving DecidableEq, Repr

/-- An axis-aligned rectangle (`paper.Rectangle`) stored as top-left corner
plus width and height, exactly as paper.js stores it. -/
structure Rect where
  x : ℚ
  y : ℚ
  width : ℚ
  height : ℚ
deriving DecidableEq, Repr

/-- The result of `new paper.Rectangle()` with no arguments: the degenerate
zero-size rectangle at the origin. -/
def Rect.empty : Rect := ⟨0, 0, 0, 0⟩

/-- The right edge of a rectangle (paper.js `rect.right`). -/
def Rect.right (r : Rect) : ℚ := r.x + r.width

/-- The bottom edge of a rectangle (paper.js `rect.bottom`). -/
def Rect.bottom (r : Rect) : ℚ := r.y + r.height

/-- The top-left corner (paper.js `rect.topLeft`). -/
def Rect.topLeft (r : Rect) : Pt := ⟨r.x, r.y⟩

/-- The center point (paper.js `rect.center`). -/
def Rect.center (r : Rect) : Pt := ⟨r.x + r.width / 2, r.y + r.height / 2⟩

/-- paper.js `Rectangle#unite`: the smallest rectangle containing both,
computed componentwise from min corners and max far edges. -/
def Rect.unite (r s : Rect) : Rect :=
  { x := min r.x s.x
    y := min r.y s.y
    width := max r.right s.right - min r.x s.x
    height := max r.bottom s.bottom - min r.y s.y }

theorem Rect.right_unite (r s : Rect) : (r.unite s).right = max r.right s.right := by
  simp only [Rect.unite, Rect.right]
  ring

theorem Rect.bottom_unite (r s : Rect) : (r.unite s).bottom = max r.bottom s.bottom := by
  simp only [Rect.unite, Rect.bottom]
  ring

theorem Rect.unite_comm (r s : Rect) : r.unite s = s.unite r := by
  simp only [Rect.unite, Rect.mk.injEq]
  refine ⟨min_comm _ _, min_comm _ _, ?_, ?_⟩ <;>
    rw [min_comm, max_comm]

theorem Rect.unite_assoc (r s t : Rect) : (r.unite s).unite t = r.unite (s.unite t) := by
  have hx : (r.unite s).x = min r.x s.x := rfl
  have hy : (r.unite s).y = min r.y s.y := rfl
  have hx' : (s.unite t).x = min s.x t.x := rfl
  have hy' : (s.unite t).y = min s.y t.y := rfl
  show Rect.mk _ _ _ _ = Rect.mk _ _ _ _
  rw [Rect.mk.injEq]
  rw [Rect.right_unite, Rect.bottom_unite, Rect.right_unite, Rect.bottom_unite,
    hx, hy, hx', hy']
  exact ⟨min_assoc _ _ _, min_assoc _ _ _,
    by rw [max_assoc, min_assoc], by rw [max_assoc, min_assoc]⟩

/-- The attribute names passed to `getPathAttribute` /
`setPathAttrribute` in this file (`fillColor`, `strokeColor`,
`strokeWidth`). -/
inductive AttrName where
  | fillColor
  | strokeColor
  | strokeWidth
deriving DecidableEq, Repr

/-- A scene item as consumed by the selection: its axis-aligned bounds
plus the three path attributes the selection reads and writes.
Attribute values are opaque; `Option ℚ` models a possibly-`undefined`
JavaScript value. -/
structure Item where
  bounds : Rect
  fillColor : Option ℚ := none
  strokeColor : Option ℚ := none
  strokeWidth : Option ℚ := none
deriving DecidableEq, Repr

/-- Look up one of the three modelled attributes on an item
(JavaScript `item[attributeName]`). -/
def Item.attr (it : Item) : AttrName → Option ℚ
  | .fillColor => it.fillColor
  | .strokeColor => it.strokeColor
  | .strokeWidth => it.strokeWidth

/-- One step of the accumulation loop in `_getBoundsOfItems`:
`bounds = bounds ? bounds.unite(item.bounds) : item.bounds`, with the
initial `null` modelled as `none`. -/
def boundsStep (acc : Option Rect) (it : Item) : Option Rect :=
  match acc with
  | none => some it.bounds
  | some b => some (b.unite it.bounds)

/-- The helper `paper.Selection._getBoundsOfItems`: the union bounding box of the
given items; `new paper.Rectangle()` (the zero box at the origin) for
an empty list. -/
def getBoundsOfItems (items : List Item) : Rect :=
  if items.length = 0 then Rect.empty
  else (items.foldl boundsStep none).getD Rect.empty

instance : RightCommutative boundsStep := by
  constructor
  intro b a₁ a₂
  cases b with
  | none =>
      simp only [boundsStep, Rect.unite_comm]
  | some r =>
      simp only [boundsStep, Option.some.injEq]
      rw [Rect.unite_assoc, Rect.unite_assoc, Rect.unite_comm a₁.bounds]

theorem getBoundsOfItems_perm {l₁ l₂ : List Item} (h : List.Perm l₁ l₂) :
    getBoundsOfItems l₁ = getBoundsOfItems l₂ := by
  unfold getBoundsOfItems
  rw [h.length_eq, h.foldl_eq]

theorem getBoundsOfItems_nil : getBoundsOfItems [] = Rect.empty := rfl

/-- The `_transformation` value object:
`{x, y, scaleX, scaleY, rotation, originX, originY}`. -/
structure Transformation where
  x : ℚ
  y : ℚ
  scaleX : ℚ
  scaleY : ℚ
  rotation : ℚ
  originX : ℚ
  originY : ℚ
deriving DecidableEq, Repr

/-- A partial transformation object, as passed to
`updateTransformation`: any subset of the seven fields.  `none` means
the field is absent from the JavaScript object literal. -/
structure TransformationUpdate where
  x : Option ℚ := none
  y : Option ℚ := none
  scaleX : Option ℚ := none
  scaleY : Option ℚ := none
  rotation : Option ℚ := none
  originX : Option ℚ := none
  originY : Option ℚ := none

/-- The merge `Object.assign(this.transformation, newTransformation)`: fields
present in the update overwrite the copy, absent fields are kept. -/
def Transformation.assign (t : Transformation) (u : TransformationUpdate) : Transformation :=
  { x := u.x.getD t.x
    y := u.y.getD t.y
    scaleX := u.scaleX.getD t.scaleX
    scaleY := u.scaleY.getD t.scaleY
    rotation := u.rotation.getD t.rotation
    originX := u.originX.getD t.originX
    originY := u.originY.getD t.originY }

/-- A 2D affine matrix in paper.js layout: it maps a point `p` to
`(a p.x + c p.y + tx, b p.x + d p.y + ty)`. -/
structure Matrix2 where
  a : ℚ
  b : ℚ
  c : ℚ
  d : ℚ
  tx : ℚ
  ty : ℚ
deriving DecidableEq, Repr

/-- paper.js `Point#transform(matrix)` for a present (non-`undefined`)
matrix. -/
def Matrix2.apply (m : Matrix2) (p : Pt) : Pt :=
  ⟨m.a * p.x + m.c * p.y + m.tx, m.b * p.x + m.d * p.y + m.ty⟩

/-- Matrix composition: `(m.comp n).apply p = m.apply (n.apply p)`. -/
def Matrix2.comp (m n : Matrix2) : Matrix2 :=
  { a := m.a * n.a + m.c * n.b
    b := m.b * n.a + m.d * n.b
    c := m.a * n.c + m.c * n.d
    d := m.b * n.c + m.d * n.d
    tx := m.a * n.tx + m.c * n.ty + m.tx
    ty := m.b * n.tx + m.d * n.ty + m.ty }

theorem Matrix2.comp_apply (m n : Matrix2) (p : Pt) :
    (m.comp n).apply p = m.apply (n.apply p) := by
  simp only [Matrix2.comp, Matrix2.apply, Pt.mk.injEq]
  constructor <;> ring

/-- Translation by `(dx, dy)`. -/
def translateM (dx dy : ℚ) : Matrix2 := ⟨1, 0, 0, 1, dx, dy⟩

/-- Rotation about `(ox, oy)` whose cosine and sine are `co` and `si`. -/
def rotateAboutM (co si ox oy : ℚ) : Matrix2 :=
  ⟨co, si, -si, co, ox - co * ox + si * oy, oy - si * ox - co * oy⟩

/-- Scaling by `(sx, sy)` about `(ox, oy)`. -/
def scaleAboutM (sx sy ox oy : ℚ) : Matrix2 :=
  ⟨sx, 0, 0, sy, ox - sx * ox, oy - sy * oy⟩

/-- Modelled from the spec: the code that assigns `this._matrix` is not
under `src/` (only its readers, e.g. the `position` getter, are; the
`_create` method called by the `transformation` setter is absent from
the file).  Per the spec, the effective transform matrix is composed,
in application order, as translate by `(x, y)`, then rotate by
`rotation` about `(originX, originY)`, then scale by
`(scaleX, scaleY)` about `(originX, originY)`; equivalently, a point is
first scaled about the origin, then rotated about the origin, then
translated.  `trig` supplies the (cosine, sine) of the rotation angle. -/
def matrixOf (trig : ℚ → ℚ × ℚ) (t : Transformation) : Matrix2 :=
  let cs := trig t.rotation
  (translateM t.x t.y).comp
    ((rotateAboutM cs.1 cs.2 t.originX t.originY).comp
      (scaleAboutM t.scaleX t.scaleY t.originX t.originY))

/-- Observable events on the visualization widget (the selection GUI):
`destroy` is a call to the current widget's `destroy()`, `create` is
the construction of a fresh widget. -/
inductive GuiEvent where
  | destroy
  | create
deriving DecidableEq, Repr

/-- The state of a `paper.Selection` instance: the selected items, the
transformation, the cached `_untransformedBounds`, the cached
`_matrix`, and the log of widget destroy/create events (the external
observation used by the frame-effect claims). -/
structure Selection where
  items : List Item
  transformation : Transformation
  untransformedBounds : Rect
  matrix : Matrix2
  log : List GuiEvent
deriving DecidableEq, Repr

/-- Constructor arguments: every field of `args` is optional
(`none` models an absent / `undefined` JavaScript field). -/
structure Args where
  items : Option (List Item) := none
  x : Option ℚ := none
  y : Option ℚ := none
  scaleX : Option ℚ := none
  scaleY : Option ℚ := none
  rotation : Option ℚ := none
  originX : Option ℚ := none
  originY : Option ℚ := none

/-- JavaScript `v || d` for a possibly-absent number `v`: an absent
value and the falsy number `0` both fall back to the default `d`.
(`NaN` is also falsy in JavaScript but is outside the rational model.) -/
def orNum (v : Option ℚ) (d : ℚ) : ℚ :=
  match v with
  | none => d
  | some q => if q = 0 then d else q

/-- The `paper.Selection` constructor.  `args.items || []` keeps an
explicitly supplied list (an empty array is truthy in JavaScript);
`x`/`y`/`scaleX`/`scaleY`/`rotation` go through the falsy-or defaults;
`originX`/`originY` are tested against `undefined` only, so an explicit
`0` is kept; absent origins default to the center of the untransformed
bounds.  `_rebuild` creates the initial widget; the matrix accompanying
the widget is modelled from the spec (see `matrixOf`). -/
def mkSelection (trig : ℚ → ℚ × ℚ) (args : Args) : Selection :=
  let items := args.items.getD []
  let ub := getBoundsOfItems items
  let tr : Transformation :=
    { x := orNum args.x 0
      y := orNum args.y 0
      scaleX := orNum args.scaleX 1
      scaleY := orNum args.scaleY 1
      rotation := orNum args.rotation 0
      originX := match args.originX with
        | none => ub.center.x
        | some v => v
      originY := match args.originY with
        | none => ub.center.y
        | some v => v }
  { items := items
    transformation := tr
    untransformedBounds := ub
    matrix := matrixOf trig tr
    log := [.create] }

/-- The setter `set items`: `this._destroy(false); this._items = items;` —
`_destroy` calls `this._gui.destroy()` once; nothing is rebuilt and
neither `_transformation` nor `_untransformedBounds` is touched. -/
def setItems (s : Selection) (items : List Item) : Selection :=
  { s with items := items, log := s.log ++ [.destroy] }

/-- The setter `set transformation`: `this._destroy(true); this._transformation =
transformation; this._create();` — the old widget is destroyed and a
fresh one created.  `_create` is absent from `src/`; modelled from the
spec, it rebuilds the widget and recomputes the composed matrix. -/
def setTransformation (trig : ℚ → ℚ × ℚ) (s : Selection) (t : Transformation) : Selection :=
  { s with transformation := t
           matrix := matrixOf trig t
           log := s.log ++ [.destroy, .create] }

/-- The method `updateTransformation(newTransformation)`: merge the update into a
copy of the current transformation, then run the full transformation
setter. -/
def updateTransformation (trig : ℚ → ℚ × ℚ) (s : Selection) (u : TransformationUpdate) :
    Selection :=
  setTransformation trig s (s.transformation.assign u)

/-- The getter `get position`: `this._untransformedBounds.topLeft.transform(this._matrix)`. -/
def position (s : Selection) : Pt :=
  s.matrix.apply s.untransformedBounds.topLeft

/-- The setter `set position`: translate by the delta between the requested and
the current position. -/
def setPosition (trig : ℚ → ℚ × ℚ) (s : Selection) (p : Pt) : Selection :=
  let d : Pt := ⟨p.x - (position s).x, p.y - (position s).y⟩
  updateTransformation trig s
    { x := some (s.transformation.x + d.x), y := some (s.transformation.y + d.y) }

/-- The getter `get width`: `this._untransformedBounds.width * this.transformation.scaleX`. -/
def width (s : Selection) : ℚ :=
  s.untransformedBounds.width * s.transformation.scaleX

/-- The setter `set width`: `var d = this.width / width;` then
`scaleX = this.transformation.scaleX / d`.  In JavaScript a zero
divisor produces `Infinity`/`NaN`; in the rational model it produces
`0`.  In both semantics the interesting observation (the subsequent
`width` read differing from the requested value) is the same. -/
def setWidth (trig : ℚ → ℚ × ℚ) (s : Selection) (w : ℚ) : Selection :=
  let d := width s / w
  updateTransformation trig s { scaleX := some (s.transformation.scaleX / d) }

/-- The setter `set scaleX`. -/
def setScaleX (trig : ℚ → ℚ × ℚ) (s : Selection) (v : ℚ) : Selection :=
  updateTransformation trig s { scaleX := some v }

/-- A diagnostic reported through the console (here: `console.error`). -/
inductive ConsoleEvent where
  | error
deriving DecidableEq, Repr

/-- A thrown JavaScript exception. -/
inductive JsError where
  | typeError
deriving DecidableEq, Repr

/-- The method `getPathAttribute(attributeName)`: on an empty selection it logs
`console.error(...)` and then evaluates `this.items[0][attributeName]`;
`this.items[0]` is `undefined` there, and a property access on
`undefined` throws a `TypeError`.  On a non-empty selection it returns
the first item's attribute (possibly `undefined`, i.e. `none`).  The
result pairs the console diagnostics with the outcome. -/
def getPathAttribute (s : Selection) (name : AttrName) :
    List ConsoleEvent × Except JsError (Option ℚ) :=
  let diag : List ConsoleEvent := if s.items.length = 0 then [.error] else []
  match s.items with
  | [] => (diag, .error .typeError)
  | it :: _ => (diag, .ok (it.attr name))

/-- The getter `get fillColor`. -/
def fillColor (s : Selection) : List ConsoleEvent × Except JsError (Option ℚ) :=
  getPathAttribute s .fillColor

/-!
Z-order operations.  For these, items are identified by ids (`ℕ`) and a
layer is its list of children, back to front — paper.js convention: a
higher index is closer to the front, `item.index` is the position in
the owning layer's child list, and `item.nextSibling` is the child one
step toward the front.  The z-order claims concern items of a single
layer; `_sortItemsByLayer` applied to items of one layer produces the
single group holding all the selected items, so the per-layer loop
body is modelled directly on that group.
-/

/-- paper.js `item.nextSibling` within layer `L`: the element directly
after `a` (one step toward the front), `none` for the frontmost item
(and for an item not in the layer, which has no siblings). -/
def nextSibling (L : List ℕ) (a : ℕ) : Option ℕ :=
  L[L.indexOf a + 1]?

/-- paper.js `a.insertAbove(b)`: remove `a` from the layer and
re-insert it directly above `b` (directly after `b` in the child
list). -/
def insertAbove (L : List ℕ) (a b : ℕ) : List ℕ :=
  let L' := L.erase a
  let i := L'.indexOf b
  L'.take (i + 1) ++ a :: L'.drop (i + 1)

/-- The helper `paper.Selection._sortItemsByZIndex`: sort the selected items by
their current `index` (their position in the layer `L`), ascending.
The source uses `Array#sort` with the comparator `a.index - b.index`;
the comparator runs before any reordering of the layer, and positions
within a layer are distinct, so any correct sort — here an insertion
sort — computes the same list. -/
def insertZ (L : List ℕ) (a : ℕ) : List ℕ → List ℕ
  | [] => [a]
  | b :: t => if L.indexOf a ≤ L.indexOf b then a :: b :: t else b :: insertZ L a t

/-- See `insertZ`. -/
def sortItemsByZIndex (L : List ℕ) (sel : List ℕ) : List ℕ :=
  sel.foldr (insertZ L) []

/-- The loop body of `moveForwards`: if the item has a next sibling and
that sibling is not itself selected (`this._items.indexOf(...) === -1`),
move the item directly above the sibling; otherwise leave the layer
unchanged. -/
def moveForwardStep (sel : List ℕ) (L : List ℕ) (a : ℕ) : List ℕ :=
  match nextSibling L a with
  | none => L
  | some s => if s ∈ sel then L else insertAbove L a s

/-- The method `moveForwards()` on one layer: sort the selected items by current
depth index ascending, reverse (descending traversal), and apply the
guarded move to each in turn. -/
def moveForwards (L : List ℕ) (sel : List ℕ) : List ℕ :=
  ((sortItemsByZIndex L sel).reverse).foldl (moveForwardStep sel) L

/-- paper.js `item.bringToFront()`: move the item to the end of its
layer's child list (the absolute front). -/
def bringToFrontOne (L : List ℕ) (a : ℕ) : List ℕ :=
  L.erase a ++ [a]

/-- The method `bringToFront()` on one layer: ascending depth-index order, each
item moved to the absolute front. -/
def bringToFront (L : List ℕ) (sel : List ℕ) : List ℕ :=
  (sortItemsByZIndex L sel).foldl bringToFrontOne L

/-! Concrete fixtures used by witnesses and counterexamples (the two
rectangles are the spec's own scenario: bounds `[0,0,10,10]` and
`[20,20,10,10]`). -/

/-- An item with bounds `[0, 0, 10, 10]`. -/
def itemA : Item := { bounds := ⟨0, 0, 10, 10⟩ }

/-- An item with bounds `[20, 20, 10, 10]`. -/
def itemB : Item := { bounds := ⟨20, 20, 10, 10⟩ }

/-- A concrete trigonometric oracle (any oracle works in the theorems;
this one maps every angle to cosine 1, sine 0). -/
def trig0 : ℚ → ℚ × ℚ := fun _ => (1, 0)

/-- C9: `_getBoundsOfItems` is order-independent — any permutation of
the same item list yields the same union rectangle — and the empty
list yields the degenerate zero-size rectangle at the origin. -/
theorem boundsOfItems_order_independent :
    (∀ l₁ l₂ : List Item, List.Perm l₁ l₂ →
      getBoundsOfItems l₁ = getBoundsOfItems l₂) ∧
    getBoundsOfItems [] = { x := 0, y := 0, width := 0, height := 0 } :=
  ⟨fun _ _ h => getBoundsOfItems_perm h, rfl⟩

/-- Witness for C9 at a concrete two-item permutation. -/
theorem boundsOfItems_order_independent_witness :
    List.Perm [itemA, itemB] [itemB, itemA] ∧
      getBoundsOfItems [itemA, itemB] = getBoundsOfItems [itemB, itemA] :=
  ⟨List.Perm.swap itemB itemA [],
    boundsOfItems_order_independent.1 _ _ (List.Perm.swap itemB itemA [])⟩

/-- C4 counterexample: the `items` setter does not recompute
`_untransformedBounds`.  Constructing a selection over `itemA` and then
assigning `items = [itemB]` leaves `_untransformedBounds` at `itemA`'s
box, which differs from the union bounds of the current items. -/
theorem untransformedBounds_stale_after_setItems :
    (setItems (mkSelection trig0 { items := some [itemA] }) [itemB]).untransformedBounds ≠
      getBoundsOfItems (setItems (mkSelection trig0 { items := some [itemA] }) [itemB]).items := by
  decide

/-- C4 amended: `_untransformedBounds` equals the union of the items'
own bounds as computed at construction (for an empty selection it is
the degenerate zero-size box at the origin), and the `items` setter
replaces the sequence without recomputing it — the caller must rebuild. -/
theorem untransformedBounds_invariant :
    (∀ trig args, (mkSelection trig args).untransformedBounds
        = getBoundsOfItems (args.items.getD [])) ∧
      (∀ (s : Selection) items', (setItems s items').untransformedBounds
        = s.untransformedBounds) ∧
      (∀ trig, (mkSelection trig { items := none }).untransformedBounds
        = { x := 0, y := 0, width := 0, height := 0 }) :=
  ⟨fun _ _ => rfl, fun _ _ => rfl, fun _ => rfl⟩

/-- C5: assigning a new list through the `items` setter leaves the
transformation object unchanged, and the only widget effect is a
single `destroy()` call — no rebuild until the next mutation. -/
theorem setItems_frame :
    ∀ (s : Selection) items',
      (setItems s items').transformation = s.transformation ∧
      (setItems s items').log = s.log ++ [GuiEvent.destroy] :=
  fun _ _ => ⟨rfl, rfl⟩

/-- C6: reading a path attribute on an empty selection reports the
`console.error` diagnostic, but then `this.items[0][attributeName]`
dereferences `undefined` and throws a `TypeError` — it does not return
an undefined value to the caller. -/
theorem getPathAttribute_empty_selection_throws :
    ∀ name, getPathAttribute (mkSelection trig0 {}) name
      = ([ConsoleEvent.error], Except.error JsError.typeError) :=
  fun name => by cases name <;> rfl

/-- C10: in the constructor, a supplied `scaleX`/`scaleY` of `0` is
indistinguishable from omitting the field and yields scale `1`; the
same falsy fallback governs `x`, `y` and `rotation`; but an explicit
`originX`/`originY` of `0` is honored, because the origin defaulting
tests `!== undefined` rather than falsiness. -/
theorem constructor_falsy_defaults :
    ∀ trig (args : Args),
      (mkSelection trig { args with scaleX := some 0 }
          = mkSelection trig { args with scaleX := none } ∧
        mkSelection trig { args with scaleY := some 0 }
          = mkSelection trig { args with scaleY := none } ∧
        mkSelection trig { args with x := some 0 }
          = mkSelection trig { args with x := none } ∧
        mkSelection trig { args with y := some 0 }
          = mkSelection trig { args with y := none } ∧
        mkSelection trig { args with rotation := some 0 }
          = mkSelection trig { args with rotation := none }) ∧
      (mkSelection trig { args with scaleX := some 0 }).transformation.scaleX = 1 ∧
      (mkSelection trig { args with scaleY := some 0 }).transformation.scaleY = 1 ∧
      (mkSelection trig { args with originX := some 0 }).transformation.originX = 0 ∧
      (mkSelection trig { args with originY := some 0 }).transformation.originY = 0 := by
  intro trig args
  refine ⟨⟨?_, ?_, ?_, ?_, ?_⟩, ?_, ?_, rfl, rfl⟩ <;>
    simp [mkSelection, orNum]

/-- C1: for every selection state whose cached matrix is in sync with
its transformation (as every reachable state is), the `position` getter
returns the top-left corner of `_untransformedBounds` mapped through
the composed matrix; applying that matrix performs, in application
order on a point, scale about the origin, then rotation about the
origin, then translation by `(x, y)`; and the matrix is recomputed
whenever the transformation is replaced. -/
theorem position_is_topLeft_through_matrix (trig : ℚ → ℚ × ℚ) (s : Selection)
    (h : s.matrix = matrixOf trig s.transformation) :
    position s = (matrixOf trig s.transformation).apply s.untransformedBounds.topLeft ∧
    (∀ t p, (matrixOf trig t).apply p
      = (translateM t.x t.y).apply
          ((rotateAboutM (trig t.rotation).1 (trig t.rotation).2 t.originX t.originY).apply
            ((scaleAboutM t.scaleX t.scaleY t.originX t.originY).apply p))) ∧
    (∀ t, (setTransformation trig s t).matrix = matrixOf trig t) := by
  refine ⟨by rw [position, h], fun t p => ?_, fun t => rfl⟩
  simp only [matrixOf, Matrix2.comp_apply]

/-- Witness for C1 at a concrete reachable state. -/
theorem position_is_topLeft_through_matrix_witness :
    ((mkSelection trig0 { items := some [itemA] }).matrix
      = matrixOf trig0 (mkSelection trig0 { items := some [itemA] }).transformation) ∧
    (position (mkSelection trig0 { items := some [itemA] })
        = (matrixOf trig0 (mkSelection trig0 { items := some [itemA] }).transformation).apply
            (mkSelection trig0 { items := some [itemA] }).untransformedBounds.topLeft ∧
      (∀ t p, (matrixOf trig0 t).apply p
        = (translateM t.x t.y).apply
            ((rotateAboutM (trig0 t.rotation).1 (trig0 t.rotation).2 t.originX t.originY).apply
              ((scaleAboutM t.scaleX t.scaleY t.originX t.originY).apply p))) ∧
      (∀ t, (setTransformation trig0 (mkSelection trig0 { items := some [itemA] }) t).matrix
        = matrixOf trig0 t)) :=
  ⟨rfl, position_is_topLeft_through_matrix trig0 _ rfl⟩

/-- C2: setting `position` to a point `p` and immediately reading
`position` returns exactly `p` (the model computes with exact
rationals, so "within floating-point tolerance" holds trivially), for
every prior transformation state whose cached matrix is in sync. -/
theorem position_setter_getter_roundtrip (trig : ℚ → ℚ × ℚ) (s : Selection) (p : Pt)
    (h : s.matrix = matrixOf trig s.transformation) :
    position (setPosition trig s p) = p := by
  cases p with
  | mk px py =>
    simp only [setPosition, position, h, updateTransformation, setTransformation,
      Transformation.assign, Option.getD_some, Option.getD_none, matrixOf,
      Matrix2.comp, Matrix2.apply, translateM, rotateAboutM, scaleAboutM, Pt.mk.injEq]
    constructor <;> ring

/-- Witness for C2 at a concrete reachable state and target point. -/
theorem position_setter_getter_roundtrip_witness :
    ((mkSelection trig0 { items := some [itemA] }).matrix
      = matrixOf trig0 (mkSelection trig0 { items := some [itemA] }).transformation) ∧
    position (setPosition trig0 (mkSelection trig0 { items := some [itemA] }) ⟨3, 4⟩)
      = ⟨3, 4⟩ :=
  ⟨rfl, position_setter_getter_roundtrip trig0 _ _ rfl⟩

/-- C3 counterexample: the width round-trip fails for some selections
and some current `scaleX`.  First input: the empty selection (the
untransformed width is `0`), where setting `width` to `5` and reading
it back does not give `5` (JavaScript produces `NaN`; the rational
model produces `0` — in both semantics the read differs from `5`).
Second input: a selection over `itemA` whose `scaleX` was set to `0`,
same failure. -/
theorem width_setter_roundtrip_cex :
    (0 : ℚ) < 5 ∧
    width (setWidth trig0 (mkSelection trig0 {}) 5) ≠ 5 ∧
    width (setWidth trig0
      (setScaleX trig0 (mkSelection trig0 { items := some [itemA] }) 0) 5) ≠ 5 := by
  have h1 : width (setWidth trig0 (mkSelection trig0 {}) 5) = 0 := by
    simp [width, setWidth, setScaleX, updateTransformation, setTransformation,
      Transformation.assign, mkSelection, orNum, getBoundsOfItems, boundsStep, Rect.empty]
  have h2 : width (setWidth trig0
      (setScaleX trig0 (mkSelection trig0 { items := some [itemA] }) 0) 5) = 0 := by
    simp [width, setWidth, setScaleX, updateTransformation, setTransformation,
      Transformation.assign, mkSelection, orNum, getBoundsOfItems, boundsStep, itemA]
  refine ⟨by norm_num, ?_, ?_⟩ <;> simp [h1, h2]

/-- C3 amended: for every selection whose untransformed bounds have
nonzero width and whose current `scaleX` is nonzero, setting `width`
to `W > 0` and then reading `width` returns exactly `W`, independent
of the value of that nonzero `scaleX`. -/
theorem width_setter_roundtrip (trig : ℚ → ℚ × ℚ) (s : Selection) (w : ℚ)
    (hw : 0 < w) (hub : s.untransformedBounds.width ≠ 0)
    (hsx : s.transformation.scaleX ≠ 0) :
    width (setWidth trig s w) = w := by
  have hw' : w ≠ 0 := ne_of_gt hw
  simp only [setWidth, width, updateTransformation, setTransformation,
    Transformation.assign, Option.getD_some, Option.getD_none]
  field_simp
  ring

/-- Witness for C3 at a concrete selection of width 10 and scale 1. -/
theorem width_setter_roundtrip_witness :
    ((0 : ℚ) < 5 ∧
      (mkSelection trig0 { items := some [itemA] }).untransformedBounds.width ≠ 0 ∧
      (mkSelection trig0 { items := some [itemA] }).transformation.scaleX ≠ 0) ∧
    width (setWidth trig0 (mkSelection trig0 { items := some [itemA] }) 5) = 5 :=
  ⟨⟨by norm_num,
      by simp [mkSelection, getBoundsOfItems, boundsStep, itemA],
      by simp [mkSelection, orNum]⟩,
    width_setter_roundtrip trig0 _ 5 (by norm_num)
      (by simp [mkSelection, getBoundsOfItems, boundsStep, itemA])
      (by simp [mkSelection, orNum])⟩

/-- Sorting three items already in ascending depth order is the
identity. -/
theorem sortZ3 (L : List ℕ) (a b c : ℕ) (hab : L.indexOf a ≤ L.indexOf b)
    (hbc : L.indexOf b ≤ L.indexOf c) :
    sortItemsByZIndex L [a, b, c] = [a, b, c] := by
  simp [sortItemsByZIndex, insertZ, hab, hbc]

/-- Effect of `bringToFront()` on a single item that sits after a prefix it does
not occur in: the item moves to the end of the layer. -/
theorem bringToFrontOne_eq (P Y : List ℕ) (a : ℕ) (h : a ∉ P) :
    bringToFrontOne (P ++ a :: Y) a = P ++ Y ++ [a] := by
  simp [bringToFrontOne, List.erase_append_right _ h]

/-- C7: for a selection of three items `[a, b, c]` adjacent in one
layer with depth order `a < b < c`, `bringToFront()` moves the block to
the very front: the layer becomes the non-selected items (in their old
order) followed by `a, b, c`; in particular the relative order among
the three is preserved and each one is in front of every non-selected
item. -/
theorem bringToFront_adjacent_three (P S : List ℕ) (a b c : ℕ)
    (hnd : (P ++ a :: b :: c :: S).Nodup) :
    bringToFront (P ++ a :: b :: c :: S) [a, b, c] = P ++ S ++ [a, b, c] ∧
    (P ++ S ++ [a, b, c]).indexOf a < (P ++ S ++ [a, b, c]).indexOf b ∧
    (P ++ S ++ [a, b, c]).indexOf b < (P ++ S ++ [a, b, c]).indexOf c ∧
    ∀ x ∈ P ++ S, (P ++ S ++ [a, b, c]).indexOf x < (P ++ S ++ [a, b, c]).indexOf a := by
  have hd := List.disjoint_of_nodup_append hnd
  have haP : a ∉ P := fun h => hd h (by simp)
  have hbP : b ∉ P := fun h => hd h (by simp)
  have hcP : c ∉ P := fun h => hd h (by simp)
  have h2 : (a :: b :: c :: S).Nodup := hnd.of_append_right
  simp only [List.nodup_cons, List.mem_cons, not_or] at h2
  obtain ⟨⟨hab, hac, haS⟩, ⟨hbc, hbS⟩, hcS, _⟩ := h2
  have ia : (P ++ a :: b :: c :: S).indexOf a = P.length := by
    rw [List.indexOf_append_of_not_mem haP, List.indexOf_cons_self, Nat.add_zero]
  have ib : (P ++ a :: b :: c :: S).indexOf b = P.length + 1 := by
    rw [List.indexOf_append_of_not_mem hbP, List.indexOf_cons_ne _ hab,
      List.indexOf_cons_self]
  have ic : (P ++ a :: b :: c :: S).indexOf c = P.length + 2 := by
    rw [List.indexOf_append_of_not_mem hcP, List.indexOf_cons_ne _ hac,
      List.indexOf_cons_ne _ hbc, List.indexOf_cons_self]
  have hsort : sortItemsByZIndex (P ++ a :: b :: c :: S) [a, b, c] = [a, b, c] :=
    sortZ3 _ a b c (by rw [ia, ib]; omega) (by rw [ib, ic]; omega)
  have hfold : bringToFront (P ++ a :: b :: c :: S) [a, b, c] = P ++ S ++ [a, b, c] := by
    rw [bringToFront, hsort]
    simp only [List.foldl_cons, List.foldl_nil]
    rw [bringToFrontOne_eq P (b :: c :: S) a haP]
    have e1 : P ++ (b :: c :: S) ++ [a] = P ++ b :: (c :: (S ++ [a])) := by simp
    rw [e1, bringToFrontOne_eq P (c :: (S ++ [a])) b hbP]
    have e2 : P ++ (c :: (S ++ [a])) ++ [b] = P ++ c :: (S ++ [a] ++ [b]) := by simp
    rw [e2, bringToFrontOne_eq P (S ++ [a] ++ [b]) c hcP]
    simp
  have hAPS : a ∉ P ++ S := by
    simp only [List.mem_append, not_or]
    exact ⟨haP, haS⟩
  have hBPS : b ∉ P ++ S := by
    simp only [List.mem_append, not_or]
    exact ⟨hbP, hbS⟩
  have hCPS : c ∉ P ++ S := by
    simp only [List.mem_append, not_or]
    exact ⟨hcP, hcS⟩
  have ra : (P ++ S ++ [a, b, c]).indexOf a = (P ++ S).length := by
    rw [List.indexOf_append_of_not_mem hAPS, List.indexOf_cons_self, Nat.add_zero]
  have rb : (P ++ S ++ [a, b, c]).indexOf b = (P ++ S).length + 1 := by
    rw [List.indexOf_append_of_not_mem hBPS, List.indexOf_cons_ne _ hab,
      List.indexOf_cons_self]
  have rc : (P ++ S ++ [a, b, c]).indexOf c = (P ++ S).length + 2 := by
    rw [List.indexOf_append_of_not_mem hCPS, List.indexOf_cons_ne _ hac,
      List.indexOf_cons_ne _ hbc, List.indexOf_cons_self]
  refine ⟨hfold, by omega, by omega, ?_⟩
  intro x hx
  rw [List.indexOf_append_of_mem hx, ra]
  exact List.indexOf_lt_length.2 hx

/-- Witness for C7 at a concrete layer `[10, 1, 2, 3, 20]` with the
adjacent selection `[1, 2, 3]`. -/
theorem bringToFront_adjacent_three_witness :
    ([10] ++ 1 :: 2 :: 3 :: [20] : List ℕ).Nodup ∧
    (bringToFront ([10] ++ 1 :: 2 :: 3 :: [20]) [1, 2, 3] = [10] ++ [20] ++ [1, 2, 3] ∧
      (([10] : List ℕ) ++ [20] ++ [1, 2, 3]).indexOf 1
        < (([10] : List ℕ) ++ [20] ++ [1, 2, 3]).indexOf 2 ∧
      (([10] : List ℕ) ++ [20] ++ [1, 2, 3]).indexOf 2
        < (([10] : List ℕ) ++ [20] ++ [1, 2, 3]).indexOf 3 ∧
      ∀ x ∈ ([10] : List ℕ) ++ [20],
        (([10] : List ℕ) ++ [20] ++ [1, 2, 3]).indexOf x
          < (([10] : List ℕ) ++ [20] ++ [1, 2, 3]).indexOf 1) :=
  ⟨by decide, bringToFront_adjacent_three [10] [20] 1 2 3 (by decide)⟩

/-- The move `insertAbove` applied to an item and its immediate next sibling is
an adjacent swap. -/
theorem insertAbove_adjacent (X Z : List ℕ) (j s : ℕ) (hjX : j ∉ X) (hsX : s ∉ X) :
    insertAbove (X ++ j :: s :: Z) j s = X ++ s :: j :: Z := by
  have he : (X ++ j :: s :: Z).erase j = X ++ s :: Z := by
    rw [List.erase_append_right _ hjX, List.erase_cons_head]
  have hi : (X ++ s :: Z).indexOf s = X.length := by
    rw [List.indexOf_append_of_not_mem hsX, List.indexOf_cons_self, Nat.add_zero]
  simp only [insertAbove, he, hi]
  rw [List.take_append 1, List.drop_append 1]
  simp

/-- One guarded step of `moveForwards` never disturbs the suffix
`i :: U` of the layer when `i` and everything in `U` are selected: the
step permutes the items below `i` and leaves the block from `i` to the
front untouched. -/
theorem moveForwardStep_fixes_top (sel : List ℕ) (i : ℕ) (U : List ℕ)
    (hisel : i ∈ sel) (hUsel : ∀ x ∈ U, x ∈ sel)
    (M : List ℕ) (hnd : (M ++ i :: U).Nodup) (j : ℕ) :
    ∃ M', moveForwardStep sel (M ++ i :: U) j = M' ++ i :: U ∧ List.Perm M' M := by
  have hd := List.disjoint_of_nodup_append hnd
  have hiM : i ∉ M := fun h => hd h (List.mem_cons_self i U)
  by_cases hjL : j ∈ M ++ i :: U
  case neg =>
    refine ⟨M, ?_, List.Perm.refl M⟩
    have h1 : (M ++ i :: U).indexOf j = (M ++ i :: U).length :=
      List.indexOf_of_not_mem hjL
    have h2 : nextSibling (M ++ i :: U) j = none := by
      unfold nextSibling
      rw [h1]
      exact List.getElem?_eq_none (by omega)
    simp [moveForwardStep, h2]
  case pos =>
    rcases List.mem_append.mp hjL with hjM | hjIU
    · obtain ⟨X, R, hXR⟩ := List.append_of_mem hjM
      subst hXR
      have hjX : j ∉ X := by
        have hdX := List.disjoint_of_nodup_append hnd.of_append_left
        exact fun h => hdX h (List.mem_cons_self j R)
      have hidx : ((X ++ j :: R) ++ i :: U).indexOf j = X.length := by
        rw [show (X ++ j :: R) ++ i :: U = X ++ j :: (R ++ i :: U) by simp,
          List.indexOf_append_of_not_mem hjX, List.indexOf_cons_self, Nat.add_zero]
      cases R with
      | nil =>
          have hns : nextSibling ((X ++ [j]) ++ i :: U) j = some i := by
            unfold nextSibling
            rw [hidx, List.getElem?_append_right (by simp)]
            simp
          refine ⟨X ++ [j], ?_, List.Perm.refl _⟩
          unfold moveForwardStep
          rw [hns]
          simp [hisel]
      | cons s Y =>
          have hsX : s ∉ X := by
            have hdX := List.disjoint_of_nodup_append hnd.of_append_left
            exact fun h => hdX h (by simp)
          have hns : nextSibling ((X ++ j :: s :: Y) ++ i :: U) j = some s := by
            unfold nextSibling
            rw [hidx,
              show (X ++ j :: s :: Y) ++ i :: U = X ++ j :: s :: (Y ++ i :: U) by simp,
              List.getElem?_append_right (by omega), Nat.add_sub_cancel_left]
            simp
          by_cases hssel : s ∈ sel
          · refine ⟨X ++ j :: s :: Y, ?_, List.Perm.refl _⟩
            unfold moveForwardStep
            rw [hns]
            simp [hssel]
          · refine ⟨X ++ s :: j :: Y, ?_, List.Perm.append_left X (List.Perm.swap j s Y)⟩
            simp only [moveForwardStep, hns, hssel, if_false]
            rw [show (X ++ j :: s :: Y) ++ i :: U = X ++ j :: s :: (Y ++ i :: U) by simp,
              insertAbove_adjacent X (Y ++ i :: U) j s hjX hsX]
            simp
    · rcases List.mem_cons.mp hjIU with hji | hjU
      · subst hji
        have hidx : (M ++ j :: U).indexOf j = M.length := by
          rw [List.indexOf_append_of_not_mem hiM, List.indexOf_cons_self, Nat.add_zero]
        cases U with
        | nil =>
            have hns : nextSibling (M ++ [j]) j = none := by
              unfold nextSibling
              rw [hidx]
              exact List.getElem?_eq_none (by simp)
            exact ⟨M, by simp [moveForwardStep, hns], List.Perm.refl M⟩
        | cons u U' =>
            have hns : nextSibling (M ++ j :: u :: U') j = some u := by
              unfold nextSibling
              rw [hidx, List.getElem?_append_right (by omega), Nat.add_sub_cancel_left]
              simp
            have husel : u ∈ sel := hUsel u (by simp)
            exact ⟨M, by simp [moveForwardStep, hns, husel], List.Perm.refl M⟩
      · obtain ⟨V, W, hVW⟩ := List.append_of_mem hjU
        subst hVW
        have h2 : (i :: (V ++ j :: W)).Nodup := hnd.of_append_right
        have hiVW : i ∉ V ++ j :: W := (List.nodup_cons.mp h2).1
        have hUnd : (V ++ j :: W).Nodup := (List.nodup_cons.mp h2).2
        have hjM : j ∉ M := fun h => hd h (by simp)
        have hji : j ≠ i := by
          rintro rfl
          exact hiVW (by simp)
        have hjV : j ∉ V := by
          have hdV := List.disjoint_of_nodup_append hUnd
          exact fun h => hdV h (List.mem_cons_self j W)
        have hjMV : j ∉ M ++ i :: V := by
          simp only [List.mem_append, List.mem_cons, not_or]
          exact ⟨hjM, hji, hjV⟩
        have hidx : (M ++ i :: (V ++ j :: W)).indexOf j = (M ++ i :: V).length := by
          rw [show M ++ i :: (V ++ j :: W) = (M ++ i :: V) ++ j :: W by simp,
            List.indexOf_append_of_not_mem hjMV, List.indexOf_cons_self, Nat.add_zero]
        cases W with
        | nil =>
            have hns : nextSibling (M ++ i :: (V ++ [j])) j = none := by
              unfold nextSibling
              rw [hidx, show M ++ i :: (V ++ [j]) = (M ++ i :: V) ++ [j] by simp]
              exact List.getElem?_eq_none (by simp; omega)
            exact ⟨M, by simp [moveForwardStep, hns], List.Perm.refl M⟩
        | cons w W' =>
            have hns : nextSibling (M ++ i :: (V ++ j :: w :: W')) j = some w := by
              unfold nextSibling
              rw [hidx,
                show M ++ i :: (V ++ j :: w :: W') = (M ++ i :: V) ++ j :: w :: W' by simp,
                List.getElem?_append_right (by omega), Nat.add_sub_cancel_left]
              simp
            have hwsel : w ∈ sel := hUsel w (by simp)
            exact ⟨M, by simp [moveForwardStep, hns, hwsel], List.Perm.refl M⟩

/-- The whole traversal of `moveForwards` (over an arbitrary processing
list) keeps the selected block from `i` to the front of the layer
intact, merely permuting the items below it. -/
theorem moveForwards_foldl_fixes_top (sel : List ℕ) (i : ℕ) (U : List ℕ)
    (hisel : i ∈ sel) (hUsel : ∀ x ∈ U, x ∈ sel) :
    ∀ (D : List ℕ) (M : List ℕ), (M ++ i :: U).Nodup →
      ∃ M', List.foldl (moveForwardStep sel) (M ++ i :: U) D = M' ++ i :: U ∧
        List.Perm M' M := by
  intro D
  induction D with
  | nil => exact fun M _ => ⟨M, rfl, List.Perm.refl M⟩
  | cons j D ih =>
      intro M hnd
      obtain ⟨M1, h1, hp1⟩ := moveForwardStep_fixes_top sel i U hisel hUsel M hnd j
      have hnd1 : (M1 ++ i :: U).Nodup :=
        (List.Perm.nodup_iff (hp1.append_right (i :: U))).mpr hnd
      obtain ⟨M2, h2, hp2⟩ := ih M1 hnd1
      exact ⟨M2, by rw [List.foldl_cons, h1, h2], hp2.trans hp1⟩

/-- C8 counterexample: layer `[0, 1, 2]` (back to front), selection
`[0, 1]`.  In the pre-state, item 0's next sibling is item 1, which is
selected — yet `moveForwards()` still moves item 0: after item 1 has
been moved above the unselected item 2, the live `nextSibling` of item
0 is 2 and the guard no longer blocks, so item 0's depth index changes
from 0 to 1. -/
theorem moveForwards_blocked_claim_cex :
    nextSibling [0, 1, 2] 0 = some 1 ∧ (1 : ℕ) ∈ ([0, 1] : List ℕ) ∧
      (moveForwards [0, 1, 2] [0, 1]).indexOf 0 ≠ ([0, 1, 2] : List ℕ).indexOf 0 := by
  decide

/-- C8 amended: for every selected item `i` whose next sibling is
itself in the selection and above which *every* item of the layer is
also selected (the selected run reaches the front of the layer),
`moveForwards()` does not move `i`: its depth index is unchanged by the
whole operation. -/
theorem moveForwards_blocked_at_front (M U sel : List ℕ) (i : ℕ)
    (hU : U ≠ []) (hnd : (M ++ i :: U).Nodup) (hisel : i ∈ sel)
    (hUsel : ∀ x ∈ U, x ∈ sel) :
    (∃ s, nextSibling (M ++ i :: U) i = some s ∧ s ∈ sel) ∧
    (moveForwards (M ++ i :: U) sel).indexOf i = (M ++ i :: U).indexOf i := by
  have hd := List.disjoint_of_nodup_append hnd
  have hiM : i ∉ M := fun h => hd h (by simp)
  have hidx : (M ++ i :: U).indexOf i = M.length := by
    rw [List.indexOf_append_of_not_mem hiM, List.indexOf_cons_self, Nat.add_zero]
  obtain ⟨u, U', rfl⟩ : ∃ u U', U = u :: U' := by
    cases U with
    | nil => exact absurd rfl hU
    | cons u U' => exact ⟨u, U', rfl⟩
  constructor
  · refine ⟨u, ?_, hUsel u (by simp)⟩
    unfold nextSibling
    rw [hidx, List.getElem?_append_right (by omega), Nat.add_sub_cancel_left]
    simp
  · unfold moveForwards
    obtain ⟨M', hfold, hp⟩ := moveForwards_foldl_fixes_top sel i (u :: U') hisel hUsel
      ((sortItemsByZIndex (M ++ i :: u :: U') sel).reverse) M hnd
    rw [hfold, hidx]
    have hiM' : i ∉ M' := fun h => hiM (hp.mem_iff.mp h)
    rw [List.indexOf_append_of_not_mem hiM', List.indexOf_cons_self, Nat.add_zero,
      hp.length_eq]

/-- Witness for the amended C8 at layer `[5, 0, 1]` with selection
`[0, 1]` (items 0 and 1 form the selected run at the front; item 0's
sibling 1 is selected and item 0 stays at depth index 1). -/
theorem moveForwards_blocked_at_front_witness :
    (([1] : List ℕ) ≠ [] ∧ (([5] : List ℕ) ++ 0 :: [1]).Nodup ∧
      (0 : ℕ) ∈ ([0, 1] : List ℕ) ∧ ∀ x ∈ ([1] : List ℕ), x ∈ ([0, 1] : List ℕ)) ∧
    ((∃ s, nextSibling (([5] : List ℕ) ++ 0 :: [1]) 0 = some s ∧ s ∈ ([0, 1] : List ℕ)) ∧
      (moveForwards (([5] : List ℕ) ++ 0 :: [1]) [0, 1]).indexOf 0
        = (([5] : List ℕ) ++ 0 :: [1]).indexOf 0) :=
  ⟨⟨by decide, by decide, by decide, by decide⟩,
    moveForwards_blocked_at_front [5] [1] [0, 1] 0 (by decide) (by decide) (by decide)
      (by decide)⟩

end WickSelection
